import Mathlib

/-!
Verification development for the certd certificate store and issuance
pipeline (package `fsstore`, `state`, `acme`, `keys` and the server's key
factory resolution).

Modelling conventions.

Go strings are modelled as `List Char`; Go's byte-wise string comparison
is the lexicographic order `List.Lex (· < ·)` on the character lists
(for the ASCII names handled by the store the two orders agree), string
concatenation is `++`, `strings.HasSuffix`/`HasPrefix` are `<:+`/`<+:`,
and `strings.TrimSuffix` is `trimSuffix` below.

The store directory is modelled one level deep (the scanner skips
subdirectories via `fs.SkipDir`) as the list of file names it contains;
`fs.WalkDir` visits the names in lexical order, so theorems about the
scan take the listing together with a `Pairwise` sortedness hypothesis
where the order matters.  `os.Stat(f) == nil` is membership of `f` in
the listing.
-/

namespace Certd

/-- Go strings, as lists of characters. -/
abbrev Str := List Char

/-- Go's string order (byte-wise lexicographic). -/
abbrev strLt (a b : Str) : Prop := List.Lex (· < ·) a b

/-- A Go `(value, error)` return: either the value or an error (error
messages are not modelled). -/
inductive Res (α : Type) where
  | ok (val : α)
  | err
  deriving DecidableEq

namespace FsStore

/-- `const keyExtension = ".key"` -/
def keyExtension : Str := ['.', 'k', 'e', 'y']

/-- `const crtExtension = ".crt"` -/
def crtExtension : Str := ['.', 'c', 'r', 't']

/-- `const csrExtension = ".csr"` -/
def csrExtension : Str := ['.', 'c', 's', 'r']

/-- `const crlExtension = ".crl"` -/
def crlExtension : Str := ['.', 'c', 'r', 'l']

/-- `const attributesExtension = ".json"` -/
def attributesExtension : Str := ['.', 'j', 's', 'o', 'n']

/-- `const settingsFile = ".store"` -/
def settingsFile : Str := ['.', 's', 't', 'o', 'r', 'e']

/-- `filepath.Ext`: the suffix of the name beginning at the final dot
(empty when there is no dot).  Store file names contain no path
separator, so the separator cut-off of the Go function never fires. -/
def goExt (s : Str) : Str :=
  let pre := s.reverse.takeWhile (fun c => c != '.')
  if pre.length = s.length then [] else '.' :: pre.reverse

/-- `strings.TrimSuffix s e`: drop the trailing `e` when present. -/
def trimSuffix (s e : Str) : Str :=
  if e <:+ s then s.take (s.length - e.length) else s

/-- The suffix classification of `(*FSStore).scanPath`: skip `.store`,
switch on `filepath.Ext` over the five recognized extensions and derive
the candidate entry name with `strings.TrimSuffix`; unrecognized
suffixes yield no candidate.  (The walk root `"."` is not a directory
entry, and subdirectories are skipped before this switch.) -/
def candidateOf (current : Str) : Option Str :=
  if current = settingsFile then none
  else if goExt current = keyExtension then some (trimSuffix current keyExtension)
  else if goExt current = crtExtension then some (trimSuffix current crtExtension)
  else if goExt current = csrExtension then some (trimSuffix current csrExtension)
  else if goExt current = crlExtension then some (trimSuffix current crlExtension)
  else if goExt current = attributesExtension then some (trimSuffix current attributesExtension)
  else none

/-- `os.Stat` succeeds exactly when the file is in the directory. -/
def hasFile (disk : List Str) (f : Str) : Bool := disk.contains f

/-- `(*FSStore).validateStoreEntry`. -/
def validateStoreEntry (disk : List Str) (name : Str) : Bool :=
  let hasKey := hasFile disk (name ++ keyExtension)
  let hasCertificate := hasFile disk (name ++ crtExtension)
  let hasCertificateRequest := hasFile disk (name ++ csrExtension)
  let hasAttributes := hasFile disk (name ++ attributesExtension)
  hasAttributes && (hasCertificate || (hasKey && hasCertificateRequest))

/-- One step of `(*FSStore).scanPath` on the entry index: dedup against
the last admitted name (`last < 0 || store.entries[last] != name`), then
validate and append. -/
def scanPathStep (disk : List Str) (entries : List Str) (current : Str) : List Str :=
  match candidateOf current with
  | none => entries
  | some n =>
    if entries.getLast? = some n then entries
    else if validateStoreEntry disk n then entries ++ [n] else entries

/-- `(*FSStore).scan`: fold `scanPath` over the directory listing,
starting from the empty index built in `newFSStore`. -/
def scan (disk : List Str) : List Str := disk.foldl (scanPathStep disk) []

/-- The cursor state of `fsStoreEntries` (`entries` slice plus `next`). -/
structure FsStoreEntries where
  entries : List Str
  next : Nat

/-- `(*FSStore).Entries`: capture the current index, cursor at 0. -/
def entriesCursor (entries : List Str) : FsStoreEntries :=
  { entries := entries, next := 0 }

/-- `(*fsStoreEntries).Next`: yield the entry at `next` or nil. -/
def cursorNext (c : FsStoreEntries) : Option Str × FsStoreEntries :=
  if h : c.next < c.entries.length then
    (some (c.entries.get ⟨c.next, h⟩), { entries := c.entries, next := c.next + 1 })
  else (none, c)

/-- All names a cursor yields when `Next` is called to exhaustion
(fuelled by the number of remaining entries). -/
def cursorYieldAux : Nat → FsStoreEntries → List Str
  | 0, _ => []
  | fuel + 1, c =>
    match cursorNext c with
    | (none, _) => []
    | (some s, c') => s :: cursorYieldAux fuel c'

/-- The full sequence of names a fresh iteration of the cursor yields. -/
def cursorYield (c : FsStoreEntries) : List Str :=
  cursorYieldAux (c.entries.length - c.next) c

instance strLtDecidable : DecidableRel strLt :=
  fun a b => inferInstanceAs (Decidable (List.Lex (· < ·) a b))

/-- The candidate names the scan derives from the listing that also pass
`validateStoreEntry` — exactly the names eligible for admission. -/
def validCands (disk : List Str) : List Str :=
  (disk.filterMap candidateOf).filter (fun n => validateStoreEntry disk n)

/-- Entry-name validity per §3: non-empty, no path separator, no
leading dot, and no recognized extension sentinel occurring inside the
name. -/
def ValidEntryName (n : Str) : Prop :=
  n ≠ [] ∧ '/' ∉ n ∧ n.head? ≠ some '.' ∧
    ∀ e ∈ [keyExtension, crtExtension, csrExtension, crlExtension, attributesExtension],
      ¬ (e <:+: n)

instance (n : Str) : Decidable (ValidEntryName n) := by
  unfold ValidEntryName
  infer_instance

/-- Insertion into an ascending list, the specification of Go's
`sort.Strings` on the element level (the library's sorting algorithm is
irrelevant: for string slices any correct sort produces this result). -/
def insertSorted (x : Str) : List Str → List Str
  | [] => [x]
  | y :: t => if strLt x y then x :: y :: t else y :: insertSorted x t

/-- `sort.Strings`: the ascending reordering of the slice. -/
def sortStrings (l : List Str) : List Str := l.foldr insertSorted []

/-- A Go slice of strings: the contents of the backing array (its length
is the capacity) together with the slice length. -/
structure GoSlice where
  buf : List Str
  len : Nat
  deriving DecidableEq

/-- Go's `append(s, x)` for a one-element append: write in place into
spare capacity when `len < cap`, otherwise allocate a doubled backing
array (zero-valued beyond the new element) and copy.  The Bool records
whether a reallocation happened. -/
def goAppend (s : GoSlice) (x : Str) : GoSlice × Bool :=
  if s.len < s.buf.length then
    ({ buf := s.buf.set s.len x, len := s.len + 1 }, false)
  else
    let newcap := if s.buf.length = 0 then 1 else 2 * s.buf.length
    let newbuf := s.buf.take s.len ++ [x] ++ List.replicate (newcap - (s.len + 1)) []
    ({ buf := newbuf, len := s.len + 1 }, true)

/-- `sort.Strings(store.entries)`: sort the `len`-prefix of the backing
array in place; cells beyond the slice length are untouched. -/
def sortSliceView (s : GoSlice) : GoSlice :=
  { buf := sortStrings (s.buf.take s.len) ++ s.buf.drop s.len, len := s.len }

/-- The index mutation at the end of a completed
`(*FSStore).CreateCertificate`: `store.entries = append(store.entries,
name)` followed by `sort.Strings(store.entries)`.  The Bool records
whether the append reallocated the backing array. -/
def createAppendsIndex (s : GoSlice) (name : Str) : GoSlice × Bool :=
  let a := goAppend s name
  (sortSliceView a.1, a.2)

/-- The sequence of names a cursor created before the mutation yields:
`(*FSStore).Entries` copied the slice header (backing-array pointer and
length), so after the create the cursor reads the first `old.len` cells
of the old array if the append reallocated, and of the mutated shared
array otherwise. -/
def cursorViewAfter (old : GoSlice) (new : GoSlice) (grew : Bool) : List Str :=
  if grew then old.buf.take old.len else new.buf.take old.len

/-- The index slice as built by three scan-time appends (entries `b`,
`c`, `d`) starting from the `make([]string, 0)` of `newFSStore`:
capacity grows 0 → 1 → 2 → 4, leaving length 3 in a backing array of
capacity 4. -/
def indexBCD : GoSlice :=
  (goAppend (goAppend (goAppend { buf := [], len := 0 } ['b']).1 ['c']).1 ['d']).1

/-- The staged file set of `fileGroup`: the target paths (store-relative)
with their open state (`nil` vs an open handle in the source), plus the
`release` flag.  The Go map iterates in arbitrary order; the list order
is immaterial because for a fixed entry name exactly one target path
carries each extension as a suffix (proved below). -/
structure FileGroup where
  files : List (Str × Bool)
  release : Bool
  deriving DecidableEq

/-- `(*FSStore).newFileGroup`: one unopened target path per extension,
`release = true`. -/
def newFileGroup (name : Str) (extensions : List Str) : FileGroup :=
  { files := extensions.map (fun e => (name ++ e, false)), release := true }

/-- `(*fileGroup).create`: locate the target path carrying the extension
as a suffix; reuse an open handle, otherwise open with
`O_CREATE|O_EXCL` — which fails iff the path already exists — and mark
it open.  `none` models the error returns. -/
def fgCreate (disk : List Str) (fg : FileGroup) (e : Str) :
    Option (List Str × FileGroup) :=
  match fg.files.find? (fun pf => decide (e <:+ pf.1)) with
  | none => none
  | some pf =>
    if pf.2 then some (disk, fg)
    else if pf.1 ∈ disk then none
    else some (disk ++ [pf.1],
      { files := fg.files.map (fun q => if q.1 = pf.1 then (q.1, true) else q),
        release := fg.release })

/-- `(*fileGroup).keep`. -/
def fgKeep (fg : FileGroup) : FileGroup := { fg with release := false }

/-- `(*fileGroup).close`: close every opened file and, when `release`
is still set, remove it from disk. -/
def fgClose (disk : List Str) (fg : FileGroup) : List Str :=
  if fg.release then
    fg.files.foldl (fun d pf => if pf.2 then d.erase pf.1 else d) disk
  else disk

/-- Failure injection for the fallible steps of `CreateCertificate` /
`CreateCertificateRequest`: `factory.New`, `writeKey`, the artifact
write (`writeCertificate` resp. `writeCertificateRequest`) and
`writeAttributes`. -/
structure CreateEnv where
  factoryFails : Bool
  writeKeyFails : Bool
  writeBodyFails : Bool
  writeAttributesFails : Bool
  deriving DecidableEq

/-- `(*FSStore).CreateCertificate` as a transformer of the on-disk file
set and the in-memory index: stage `.key + .crt + .json` exclusively,
run the fallible steps, and on any failure run the deferred
`files.close()` with `release` still set (removing every staged file);
on success `keep`, append the name and re-sort.  The Bool reports
success.  (Artifact bytes are not modelled; only existence matters
here.) -/
def createCertificate (env : CreateEnv) (disk entries : List Str) (name : Str) :
    List Str × List Str × Bool :=
  let fg0 := newFileGroup name [keyExtension, crtExtension, attributesExtension]
  match fgCreate disk fg0 keyExtension with
  | none => (fgClose disk fg0, entries, false)
  | some df1 =>
    match fgCreate df1.1 df1.2 crtExtension with
    | none => (fgClose df1.1 df1.2, entries, false)
    | some df2 =>
      match fgCreate df2.1 df2.2 attributesExtension with
      | none => (fgClose df2.1 df2.2, entries, false)
      | some df3 =>
        if env.factoryFails then (fgClose df3.1 df3.2, entries, false)
        else if env.writeKeyFails then (fgClose df3.1 df3.2, entries, false)
        else if env.writeBodyFails then (fgClose df3.1 df3.2, entries, false)
        else if env.writeAttributesFails then (fgClose df3.1 df3.2, entries, false)
        else (fgClose df3.1 (fgKeep df3.2), sortStrings (entries ++ [name]), true)

/-- `(*FSStore).CreateCertificateRequest`: as above with
`.key + .csr + .json`. -/
def createCertificateRequest (env : CreateEnv) (disk entries : List Str) (name : Str) :
    List Str × List Str × Bool :=
  let fg0 := newFileGroup name [keyExtension, csrExtension, attributesExtension]
  match fgCreate disk fg0 keyExtension with
  | none => (fgClose disk fg0, entries, false)
  | some df1 =>
    match fgCreate df1.1 df1.2 csrExtension with
    | none => (fgClose df1.1 df1.2, entries, false)
    | some df2 =>
      match fgCreate df2.1 df2.2 attributesExtension with
      | none => (fgClose df2.1 df2.2, entries, false)
      | some df3 =>
        if env.factoryFails then (fgClose df3.1 df3.2, entries, false)
        else if env.writeKeyFails then (fgClose df3.1 df3.2, entries, false)
        else if env.writeBodyFails then (fgClose df3.1 df3.2, entries, false)
        else if env.writeAttributesFails then (fgClose df3.1 df3.2, entries, false)
        else (fgClose df3.1 (fgKeep df3.2), sortStrings (entries ++ [name]), true)

/-- The file group of `CreateCertificate` with the open state of each of
its three staged paths. -/
def fgCertOpened (name : Str) (k c j : Bool) : FileGroup :=
  { files := [(name ++ keyExtension, k), (name ++ crtExtension, c),
      (name ++ attributesExtension, j)], release := true }

/-- The file group of `CreateCertificateRequest` with the open state of
each of its three staged paths. -/
def fgCsrOpened (name : Str) (k c j : Bool) : FileGroup :=
  { files := [(name ++ keyExtension, k), (name ++ csrExtension, c),
      (name ++ attributesExtension, j)], release := true }

end FsStore

namespace Acme

/-- `Http01ChallengeConfig` / `TLSAPN01ChallengeConfig`. -/
structure ChallengeConfig where
  enabled : Bool
  iface : Str
  port : Int
  deriving DecidableEq

/-- `DomainConfig` (the `Domain` field is the YAML map key). -/
structure DomainConfig where
  domain : Str
  http01Challenge : ChallengeConfig
  tlsApn01Challenge : ChallengeConfig
  deriving DecidableEq

/-- One iteration of the domain-selection loop in
`(*ACMECertificateFactory).evalConfig` under the Go 1.20 semantics the
repository's CI pins: `configDomainConfig` is the single range-loop
variable, rewritten at the start of every iteration, and
`domainConfig = &configDomainConfig` stores its *address*.  The loop
state is (is `domainConfig` assigned, the current contents of the
shared loop variable).  When the entry's domain is a suffix of the
prepared name, the guard `domainConfig == nil ||
len(domainConfig.Domain) < len(configDomainConfig.Domain)` either sees
nil (first match: the pointer is assigned) or — because the pointer
already aliases the loop variable just overwritten with this entry —
compares the entry's length with itself, which is false; in both cases
the pointer is assigned after the iteration and still aliases the loop
variable. -/
def evalConfigLoopStep (domain : Str) (st : Bool × Option DomainConfig)
    (dc : DomainConfig) : Bool × Option DomainConfig :=
  if dc.domain <:+ domain then (true, some dc) else (st.1, some dc)

/-- The domain-selection part of `evalConfig`: reject an empty domain
list, prepare `domains[0] + "."` (the `"."` is appended
unconditionally), run the selection loop over the domain table in map
iteration order (a nondeterministic order; theorems quantify over the
listed order), and fail when no entry matched.  On success the
returned config is the dereferenced pointer — the contents of the loop
variable after its final iteration, i.e. the entry iterated *last*,
whichever entry actually matched.  (The provider lookup preceding this
in `evalConfig` is independent of the selection and not modelled.) -/
def evalDomainConfig (domains : List Str) (table : List DomainConfig) :
    Res DomainConfig :=
  match domains with
  | [] => .err
  | d0 :: _ =>
    let domain := d0 ++ ['.']
    match table.foldl (evalConfigLoopStep domain) (false, none) with
    | (true, some dc) => .ok dc
    | _ => .err

/-- The prepared name as the claim words it: append `"."` only when the
first requested domain does not already end in `"."`. -/
def claimPreparedName (d0 : Str) : Str :=
  if ['.'] <:+ d0 then d0 else d0 ++ ['.']

end Acme

namespace State

/-- `filepath.IsAbs` (unix flavour): the path starts with `/`. -/
def isAbs (p : Str) : Bool := decide (['/'] <+: p)

def splitSlashAux (cur : Str) : Str → List Str
  | [] => [cur.reverse]
  | c :: t => if c = '/' then cur.reverse :: splitSlashAux [] t
      else splitSlashAux (c :: cur) t

/-- Split a path into its `/`-separated fields (empty fields kept, as in
the element scan of Go's `filepath.Clean`). -/
def splitSlash (p : Str) : List Str := splitSlashAux [] p

/-- One element step of `filepath.Clean`: drop empty and `.` elements,
let `..` pop the previous element (except past the root, or when only
`..`s have been kept on a relative path), keep everything else. -/
def cleanFold (rooted : Bool) (out : List Str) (part : Str) : List Str :=
  if part = [] ∨ part = ['.'] then out
  else if part = ['.', '.'] then
    if out ≠ [] ∧ out.getLast? ≠ some ['.', '.'] then out.dropLast
    else if rooted then out else out ++ [['.', '.']]
  else out ++ [part]

def joinSlash : List Str → Str
  | [] => []
  | [x] => x
  | x :: xs => x ++ '/' :: joinSlash xs

/-- `filepath.Clean` (unix flavour), the purely lexical path
normalization used by `filepath.Abs` and `filepath.Join`. -/
def goClean (p : Str) : Str :=
  if p = [] then ['.']
  else
    let rooted := isAbs p
    let body := joinSlash ((splitSlash p).foldl (cleanFold rooted) [])
    if rooted then '/' :: body
    else if body = [] then ['.'] else body

/-- `filepath.Join` of two elements: join the non-empty parts with `/`
and `Clean` the result. -/
def goJoin (a b : Str) : Str :=
  if a = [] ∧ b = [] then []
  else if a = [] then goClean b
  else if b = [] then goClean a
  else goClean (a ++ '/' :: b)

/-- `filepath.Abs`: already-absolute paths are just cleaned, relative
ones are joined onto the (absolute) working directory.  No symlink
resolution happens — `Abs` is lexical. -/
def goAbs (cwd p : Str) : Str := if isAbs p then goClean p else goJoin cwd p

/-- `(*fsHandler).fullPath`: compute the absolute base path, reject
absolute inputs, join and re-absolutize, then accept iff the base path
is a textual prefix (`strings.HasPrefix`) of the result. -/
def fullPath (cwd basePath path : Str) : Res Str :=
  let base := goAbs cwd basePath
  if isAbs path then .err
  else
    let full := goAbs cwd (goJoin base path)
    if base <+: full then .ok full else .err

/-- The claim's notion of the resolved path lying under the root
directory: equality or component-wise containment. -/
def UnderDir (root p : Str) : Prop := p = root ∨ (root ++ ['/']) <+: p

instance (root p : Str) : Decidable (UnderDir root p) := by
  unfold UnderDir
  infer_instance

end State

namespace Keys

/-- `rsa.ProviderName`. -/
def rsaProviderName : Str := ['R', 'S', 'A']

/-- `RSAKeyPairFactory`: carries the modulus size in bits. -/
structure RSAKeyPairFactory where
  bits : Nat
  deriving DecidableEq

/-- `(*RSAKeyPairFactory).Name`:
`ProviderName + " " + strconv.Itoa(factory.bits)`. -/
def rsaFactoryName (f : RSAKeyPairFactory) : Str :=
  rsaProviderName ++ [' '] ++ Nat.toDigits 10 f.bits

/-- `(*RSAKeyPairFactory).New` calls `rsa.GenerateKey(rand.Reader,
factory.bits)`, whose modulus has exactly `factory.bits` bits (stdlib
contract). -/
def rsaModulusBits (f : RSAKeyPairFactory) : Nat := f.bits

/-- `rsa.StandardKeys`: the registry's advertised standard sizes. -/
def rsaStandardKeys : List RSAKeyPairFactory := [⟨2048⟩, ⟨3072⟩, ⟨4096⟩]

/-- The resolved key-pair factory variants of `(*server).getKeyFactory`. -/
inductive KeyPairFactory where
  | ecdsa (curve : Str)
  | ed25519
  | rsa (f : RSAKeyPairFactory)
  deriving DecidableEq

/-- `(*server).getKeyFactory`: the key-type selector switch.  The
`"RSA 4096"` case constructs the factory with `4092` bits, exactly as
the source does. -/
def getKeyFactory (keyType : Str) : Res KeyPairFactory :=
  if keyType = ['E', 'C', 'D', 'S', 'A', ' ', 'P', '-', '2', '2', '4'] then
    .ok (.ecdsa ['P', '-', '2', '2', '4'])
  else if keyType = ['E', 'C', 'D', 'S', 'A', ' ', 'P', '-', '2', '5', '6'] then
    .ok (.ecdsa ['P', '-', '2', '5', '6'])
  else if keyType = ['E', 'C', 'D', 'S', 'A', ' ', 'P', '-', '3', '8', '4'] then
    .ok (.ecdsa ['P', '-', '3', '8', '4'])
  else if keyType = ['E', 'C', 'D', 'S', 'A', ' ', 'P', '-', '5', '2', '1'] then
    .ok (.ecdsa ['P', '-', '5', '2', '1'])
  else if keyType = ['E', 'D', '2', '5', '5', '1', '9'] then .ok .ed25519
  else if keyType = ['R', 'S', 'A', ' ', '2', '0', '4', '8'] then .ok (.rsa ⟨2048⟩)
  else if keyType = ['R', 'S', 'A', ' ', '3', '0', '7', '2'] then .ok (.rsa ⟨3072⟩)
  else if keyType = ['R', 'S', 'A', ' ', '4', '0', '9', '6'] then .ok (.rsa ⟨4092⟩)
  else .err

end Keys

namespace Artifacts

open FsStore

/-- A per-kind artifact cache (`ttlcache.Cache[string, T]`), as the
association of names to parsed artifacts.  `Get`/`Set` below model the
library's lookup and insert; the capacity-100 eviction is not modelled —
the theorems only assert that an operation either performs no `Set` at
all or that the set key is afterwards present. -/
def cacheGet {γ : Type} (c : List (Str × γ)) (k : Str) : Option γ :=
  (c.find? (fun e => decide (e.1 = k))).map (fun e => e.2)

/-- `cache.Set(name, v, ttlcache.NoTTL)`. -/
def cacheSet {γ : Type} (c : List (Str × γ)) (k : Str) (v : γ) : List (Str × γ) :=
  (k, v) :: c.filter (fun e => decide (e.1 ≠ k))

/-- A PEM block (`pem.Block`): header type and body bytes. -/
structure PemBlock (β : Type) where
  type : Str
  bytes : β
  deriving DecidableEq

/-- A PEM file at block granularity: its blocks, and whether raw
non-PEM trailing bytes follow them. -/
structure PemFile (β : Type) where
  blocks : List (PemBlock β)
  garbage : Bool
  deriving DecidableEq

/-- `pem.Decode`: the first block, plus whether a non-empty rest
remains. -/
def pemDecode {β : Type} (f : PemFile β) : Option (PemBlock β × Bool) :=
  match f.blocks with
  | [] => none
  | b :: rest => some (b, !rest.isEmpty || f.garbage)

/-- `pem.Encode` of a single block into a fresh file. -/
def pemEncodeFile {β : Type} (b : PemBlock β) : PemFile β := ⟨[b], false⟩

/-- The PEM header used by `writeKey`. -/
def privateKeyPemType : Str :=
  ['P', 'R', 'I', 'V', 'A', 'T', 'E', ' ', 'K', 'E', 'Y']

/-- The shared body of `(*FSStore).readCertificate`,
`readCertificateRequest` and `readRevocationList` (they differ only in
extension, cache and parser): consult the cache; a missing file is
`(nil, nil)`; a missing PEM block, trailing bytes or a parse failure is
an error that leaves the cache untouched; on success cache and return.
`fileOf` is the on-disk content, `parse` the `x509` parser. -/
def readPemCached {β γ : Type} (ext : Str) (fileOf : Str → Option (PemFile β))
    (parse : β → Res γ) (cache : List (Str × γ)) (name : Str) :
    Res (Option γ) × List (Str × γ) :=
  match cacheGet cache name with
  | some c => (.ok (some c), cache)
  | none =>
    match fileOf (name ++ ext) with
    | none => (.ok none, cache)
    | some f =>
      match pemDecode f with
      | none => (.err, cache)
      | some br =>
        if br.2 then (.err, cache)
        else
          match parse br.1.bytes with
          | .err => (.err, cache)
          | .ok v => (.ok (some v), cacheSet cache name v)

/-- `(*FSStore).readCertificate`. -/
def readCertificate {β γ : Type} (fileOf : Str → Option (PemFile β))
    (parse : β → Res γ) (cache : List (Str × γ)) (name : Str) :
    Res (Option γ) × List (Str × γ) :=
  readPemCached crtExtension fileOf parse cache name

/-- `(*FSStore).readCertificateRequest`. -/
def readCertificateRequest {β γ : Type} (fileOf : Str → Option (PemFile β))
    (parse : β → Res γ) (cache : List (Str × γ)) (name : Str) :
    Res (Option γ) × List (Str × γ) :=
  readPemCached csrExtension fileOf parse cache name

/-- `(*FSStore).readRevocationList`. -/
def readRevocationList {β γ : Type} (fileOf : Str → Option (PemFile β))
    (parse : β → Res γ) (cache : List (Str × γ)) (name : Str) :
    Res (Option γ) × List (Str × γ) :=
  readPemCached crlExtension fileOf parse cache name

/-- `(*FSStore).readAttributes`: consult the cache; a failing
`os.ReadFile` (a missing file included) or a failing `json.Unmarshal`
is an error; on success cache and return.  Unlike the other readers,
absence is an error here. -/
def readAttributes {β γ : Type} (fileOf : Str → Option β)
    (unmarshal : β → Res γ) (cache : List (Str × γ)) (name : Str) :
    Res γ × List (Str × γ) :=
  match cacheGet cache name with
  | some a => (.ok a, cache)
  | none =>
    match fileOf (name ++ attributesExtension) with
    | none => (.err, cache)
    | some bytes =>
      match unmarshal bytes with
      | .err => (.err, cache)
      | .ok attrs => (.ok attrs, cacheSet cache name attrs)

/-- `(*FSStore).readKey`: no cache; a missing file is `(nil, nil)`; a
missing PEM block, trailing bytes, a decryption failure or a PKCS#8
parse failure is an error.  `decrypt` is `x509.DecryptPEMBlock` with
the store secret, `parse` is `x509.ParsePKCS8PrivateKey`. -/
def readKey {β κ σ : Type} (fileOf : Str → Option (PemFile β))
    (decrypt : σ → β → Res β) (parse : β → Res κ) (secret : σ) (name : Str) :
    Res (Option κ) :=
  match fileOf (name ++ keyExtension) with
  | none => .ok none
  | some f =>
    match pemDecode f with
    | none => .err
    | some br =>
      if br.2 then .err
      else
        match decrypt secret br.1.bytes with
        | .err => .err
        | .ok kb =>
          match parse kb with
          | .err => .err
          | .ok k => .ok (some k)

/-- `(*FSStore).writeKey` as a producer of the staged file's content:
`x509.MarshalPKCS8PrivateKey`, then `x509.EncryptPEMBlock(…, "PRIVATE
KEY", …, secret, AES-256)`, then `pem.Encode` of the single encrypted
block. -/
def writeKey {β κ σ : Type} (marshal : κ → Res β) (encrypt : σ → β → Res β)
    (secret : σ) (key : κ) : Res (PemFile β) :=
  match marshal key with
  | .err => .err
  | .ok kb =>
    match encrypt secret kb with
    | .err => .err
    | .ok eb => .ok (pemEncodeFile ⟨privateKeyPemType, eb⟩)

/-- The cache effect of `(*FSStore).writeCertificate`: on a successful
`pem.Encode` the certificate is inserted into the certificate cache
(`store.certificateCache.Set(name, certificate, ttlcache.NoTTL)`); an
encode failure returns before the `Set`. -/
def writeCertificate {γ : Type} (encodeFails : Bool) (cache : List (Str × γ))
    (name : Str) (cert : γ) : Res (List (Str × γ)) :=
  if encodeFails then .err else .ok (cacheSet cache name cert)

/-- The cache effect of `(*FSStore).writeCertificateRequest`. -/
def writeCertificateRequest {γ : Type} (encodeFails : Bool)
    (cache : List (Str × γ)) (name : Str) (csr : γ) : Res (List (Str × γ)) :=
  if encodeFails then .err else .ok (cacheSet cache name csr)

/-- The cache effect of `(*FSStore).writeRevocationList`. -/
def writeRevocationList {γ : Type} (encodeFails : Bool)
    (cache : List (Str × γ)) (name : Str) (crl : γ) : Res (List (Str × γ)) :=
  if encodeFails then .err else .ok (cacheSet cache name crl)

/-- The cache effect of `(*FSStore).writeAttributes` (marshal or
file-write failure returns before the `Set`). -/
def writeAttributes {γ : Type} (writeFails : Bool) (cache : List (Str × γ))
    (name : Str) (attrs : γ) : Res (List (Str × γ)) :=
  if writeFails then .err else .ok (cacheSet cache name attrs)

end Artifacts

namespace FsStore

theorem mem_of_getLast?_eq {α : Type} {l : List α} {a : α}
    (h : l.getLast? = some a) : a ∈ l := by
  induction l with
  | nil => simp at h
  | cons b t ih =>
    cases t with
    | nil => simp [List.getLast?] at h; simp [h]
    | cons c u =>
      rw [List.getLast?_cons_cons] at h
      exact List.mem_cons_of_mem _ (ih h)

theorem mem_scanPathStep_of_mem {disk entries : List Str} {f x : Str}
    (h : x ∈ entries) : x ∈ scanPathStep disk entries f := by
  unfold scanPathStep
  cases candidateOf f with
  | none => exact h
  | some n =>
    by_cases h1 : entries.getLast? = some n
    · simp [h1, h]
    · by_cases h2 : validateStoreEntry disk n
      · simp [h1, h2]; exact Or.inl h
      · simp [h1, h2, h]

theorem mem_scanFold_of_mem {disk : List Str} {x : Str} :
    ∀ (files entries : List Str), x ∈ entries →
      x ∈ files.foldl (scanPathStep disk) entries := by
  intro files
  induction files with
  | nil => intro entries h; exact h
  | cons f rest ih =>
    intro entries h
    exact ih _ (mem_scanPathStep_of_mem h)

theorem scanPathStep_cases (disk entries : List Str) (f : Str) :
    scanPathStep disk entries f = entries ∨
      ∃ n, candidateOf f = some n ∧ validateStoreEntry disk n = true ∧
        entries.getLast? ≠ some n ∧ scanPathStep disk entries f = entries ++ [n] := by
  unfold scanPathStep
  rcases hc : candidateOf f with _ | n
  · exact Or.inl rfl
  · by_cases h2 : entries.getLast? = some n
    · simp [h2]
    · by_cases h3 : validateStoreEntry disk n
      · exact Or.inr ⟨n, rfl, h3, h2, by simp [h2, h3]⟩
      · simp [h2, h3]

theorem scanFold_sound {disk : List Str} {x : Str} :
    ∀ (files entries : List Str),
      x ∈ files.foldl (scanPathStep disk) entries →
      x ∈ entries ∨
        ((∃ f ∈ files, candidateOf f = some x) ∧ validateStoreEntry disk x = true) := by
  intro files
  induction files with
  | nil => intro entries h; exact Or.inl h
  | cons f rest ih =>
    intro entries h
    rw [List.foldl_cons] at h
    rcases ih _ h with h1 | h1
    · rcases scanPathStep_cases disk entries f with he | ⟨n, hc, hv, _, he⟩
      · rw [he] at h1; exact Or.inl h1
      · rw [he] at h1
        rcases List.mem_append.mp h1 with h4 | h4
        · exact Or.inl h4
        · have hx : x = n := by simpa using h4
          subst hx
          exact Or.inr ⟨⟨f, List.mem_cons_self _ _, hc⟩, hv⟩
    · rcases h1 with ⟨⟨f', hf', hc'⟩, hv⟩
      exact Or.inr ⟨⟨f', List.mem_cons_of_mem _ hf', hc'⟩, hv⟩

theorem scanFold_complete {disk : List Str} {n : Str} :
    ∀ (files entries : List Str) (f : Str), f ∈ files →
      candidateOf f = some n → validateStoreEntry disk n = true →
      n ∈ files.foldl (scanPathStep disk) entries := by
  intro files
  induction files with
  | nil => intro entries f hf; simp at hf
  | cons g rest ih =>
    intro entries f hf hc hv
    rw [List.foldl_cons]
    rcases List.mem_cons.mp hf with rfl | hf'
    · apply mem_scanFold_of_mem rest
      simp only [scanPathStep, hc]
      by_cases h2 : entries.getLast? = some n
      · rw [if_pos h2]; exact mem_of_getLast?_eq h2
      · rw [if_neg h2, if_pos hv]; simp
    · exact ih _ f hf' hc hv

/-- C6: during the store scan a candidate entry name is admitted to the
index iff some recognized-suffix file in the listing derives it and
`validateStoreEntry` holds for it: its `.json` file exists and either
its `.crt` file exists or both its `.key` and `.csr` files exist.
(The "unrelated" log line is an unmodelled side effect.) -/
theorem scan_admits_iff (disk : List Str) (n : Str) :
    n ∈ scan disk ↔
      ((∃ f ∈ disk, candidateOf f = some n) ∧ validateStoreEntry disk n = true) := by
  constructor
  · intro h
    rcases scanFold_sound disk [] h with h1 | h1
    · simp at h1
    · exact h1
  · rintro ⟨⟨f, hf, hc⟩, hv⟩
    exact scanFold_complete disk [] f hf hc hv

theorem strLt_irrefl (a : Str) : ¬ strLt a a := by
  induction a with
  | nil => intro h; cases h
  | cons c t ih =>
    intro h
    cases h with
    | cons h' => exact ih h'
    | rel hr => exact lt_irrefl _ hr

theorem cursorYieldAux_eq :
    ∀ (fuel : Nat) (l : List Str) (k : Nat), fuel = l.length - k →
      cursorYieldAux fuel { entries := l, next := k } = l.drop k := by
  intro fuel
  induction fuel with
  | zero =>
    intro l k h
    have hk : l.length ≤ k := Nat.le_of_sub_eq_zero h.symm
    simp [cursorYieldAux, List.drop_eq_nil_of_le hk]
  | succ fuel ih =>
    intro l k h
    have hk : k < l.length := by
      rcases Nat.lt_or_ge k l.length with h1 | h1
      · exact h1
      · rw [Nat.sub_eq_zero_of_le h1] at h; cases h
    rw [cursorYieldAux, cursorNext]
    simp only [hk, dif_pos]
    rw [ih l (k + 1) (by omega)]
    rw [List.drop_eq_getElem_cons hk]
    rfl

theorem cursorYield_entries (l : List Str) :
    cursorYield (entriesCursor l) = l := by
  unfold cursorYield entriesCursor
  rw [cursorYieldAux_eq (l.length - 0) l 0 rfl]
  exact List.drop_zero l

theorem goExt_decomp (s : Str) : ∃ m, s = m ++ goExt s := by
  by_cases h : (s.reverse.takeWhile (fun c => c != '.')).length = s.length
  · exact ⟨s, by simp [goExt, h]⟩
  · have hsplit :
        s.reverse.takeWhile (fun c => c != '.') ++
          s.reverse.dropWhile (fun c => c != '.') = s.reverse :=
      List.takeWhile_append_dropWhile _ _
    have hdnil : s.reverse.dropWhile (fun c => c != '.') ≠ [] := by
      intro hd
      apply h
      rw [hd, List.append_nil] at hsplit
      rw [hsplit, List.length_reverse]
    obtain ⟨x, xs, hx⟩ :
        ∃ x xs, s.reverse.dropWhile (fun c => c != '.') = x :: xs := by
      rcases hcase : s.reverse.dropWhile (fun c => c != '.') with _ | ⟨x, xs⟩
      · exact absurd hcase hdnil
      · exact ⟨x, xs, rfl⟩
    have hhead : (s.reverse.dropWhile (fun c => c != '.')).head hdnil = x := by
      have hq := congrArg List.head? hx
      rw [List.head?_eq_head hdnil] at hq
      simpa using hq
    have hpx : (x != '.') = false := by
      rw [← hhead]
      exact List.head_dropWhile_not (fun c => c != '.') s.reverse hdnil
    have hxdot : x = '.' := by simpa using hpx
    subst hxdot
    have hge : goExt s = '.' :: (s.reverse.takeWhile (fun c => c != '.')).reverse := by
      simp [goExt, h]
    refine ⟨xs.reverse, ?_⟩
    rw [hge]
    have hrev :
        (xs.reverse ++ '.' :: (s.reverse.takeWhile (fun c => c != '.')).reverse).reverse =
          s.reverse := by
      rw [List.reverse_append, List.reverse_cons, List.reverse_reverse,
        List.reverse_reverse]
      rw [hx] at hsplit
      conv_rhs => rw [← hsplit]
      simp
    exact (List.reverse_injective hrev).symm

theorem trimSuffix_append (m e : Str) : trimSuffix (m ++ e) e = m := by
  unfold trimSuffix
  rw [if_pos (List.suffix_append m e)]
  rw [List.length_append, Nat.add_sub_cancel, List.take_left]

theorem candidateOf_decomp {f n : Str} (h : candidateOf f = some n) :
    ∃ e, (e = keyExtension ∨ e = crtExtension ∨ e = csrExtension ∨
          e = crlExtension ∨ e = attributesExtension) ∧ f = n ++ e := by
  obtain ⟨m, hm⟩ := goExt_decomp f
  unfold candidateOf at h
  split_ifs at h with h0 h1 h2 h3 h4 h5
  · exact ⟨keyExtension, Or.inl rfl, by
      rw [h1] at hm
      have : trimSuffix f keyExtension = n := Option.some.inj h
      rw [hm, trimSuffix_append] at this
      rw [hm, this]⟩
  · exact ⟨crtExtension, Or.inr (Or.inl rfl), by
      rw [h2] at hm
      have : trimSuffix f crtExtension = n := Option.some.inj h
      rw [hm, trimSuffix_append] at this
      rw [hm, this]⟩
  · exact ⟨csrExtension, Or.inr (Or.inr (Or.inl rfl)), by
      rw [h3] at hm
      have : trimSuffix f csrExtension = n := Option.some.inj h
      rw [hm, trimSuffix_append] at this
      rw [hm, this]⟩
  · exact ⟨crlExtension, Or.inr (Or.inr (Or.inr (Or.inl rfl))), by
      rw [h4] at hm
      have : trimSuffix f crlExtension = n := Option.some.inj h
      rw [hm, trimSuffix_append] at this
      rw [hm, this]⟩
  · exact ⟨attributesExtension, Or.inr (Or.inr (Or.inr (Or.inr rfl))), by
      rw [h5] at hm
      have : trimSuffix f attributesExtension = n := Option.some.inj h
      rw [hm, trimSuffix_append] at this
      rw [hm, this]⟩

theorem lex_cons_ne {c d : Char} {u v : List Char} (h : c ≠ d) :
    List.Lex (· < ·) (c :: u) (d :: v) ↔ c < d := by
  constructor
  · intro hlex
    cases hlex with
    | cons _ => exact absurd rfl h
    | rel hr => exact hr
  · exact fun hcd => List.Lex.rel hcd

theorem lex_append_iff :
    ∀ {a b : List Char}, ¬ (a <+: b) → ¬ (b <+: a) → ∀ (x y : List Char),
      (List.Lex (· < ·) (a ++ x) (b ++ y) ↔ List.Lex (· < ·) a b) := by
  intro a
  induction a with
  | nil => intro b hab _ _ _; exact absurd ⟨b, rfl⟩ hab
  | cons c a' ih =>
    intro b hab hba x y
    cases b with
    | nil => exact absurd ⟨c :: a', rfl⟩ hba
    | cons d b' =>
      by_cases hcd : c = d
      · subst hcd
        have hab' : ¬ (a' <+: b') := fun hp => hab (List.cons_prefix_cons.mpr ⟨rfl, hp⟩)
        have hba' : ¬ (b' <+: a') := fun hp => hba (List.cons_prefix_cons.mpr ⟨rfl, hp⟩)
        rw [List.cons_append, List.cons_append, List.Lex.cons_iff, List.Lex.cons_iff]
        exact ih hab' hba' x y
      · rw [List.cons_append, List.cons_append, lex_cons_ne hcd, lex_cons_ne hcd]

theorem sorted_last_max {l : List Str} {a : Str}
    (hs : l.Pairwise strLt) (hl : l.getLast? = some a) :
    ∀ x ∈ l, x = a ∨ strLt x a := by
  induction l with
  | nil => simp at hl
  | cons b t ih =>
    cases t with
    | nil =>
      have hba : b = a := by simpa [List.getLast?] using hl
      intro x hx
      have : x = b := by simpa using hx
      exact Or.inl (this.trans hba)
    | cons c u =>
      rw [List.getLast?_cons_cons] at hl
      intro x hx
      rcases List.mem_cons.mp hx with rfl | hx'
      · right
        have hmem : a ∈ c :: u := mem_of_getLast?_eq hl
        exact (List.pairwise_cons.mp hs).1 a hmem
      · exact ih (List.pairwise_cons.mp hs).2 hl x hx'

theorem mem_validCands {disk : List Str} {n : Str} :
    n ∈ validCands disk ↔
      ((∃ f ∈ disk, candidateOf f = some n) ∧ validateStoreEntry disk n = true) := by
  simp [validCands, List.mem_filter, List.mem_filterMap]

theorem exists_getLast?_of_ne_nil {α : Type} {l : List α} (h : l ≠ []) :
    ∃ a, l.getLast? = some a := by
  induction l with
  | nil => exact absurd rfl h
  | cons b t ih =>
    cases t with
    | nil => exact ⟨b, rfl⟩
    | cons c u =>
      rw [List.getLast?_cons_cons]
      exact ih (by simp)

theorem scanFold_sorted_aux (disk : List Str)
    (hnp : ∀ m ∈ validCands disk, ∀ n ∈ validCands disk, m ≠ n → ¬ (m <+: n)) :
    ∀ (files : List Str), files.Pairwise strLt → (∀ f ∈ files, f ∈ disk) →
      ∀ (entries : List Str), entries.Pairwise strLt →
        (∀ x ∈ entries, x ∈ validCands disk) →
        (∀ l, entries.getLast? = some l → ∀ f ∈ files, ∀ n, candidateOf f = some n →
          validateStoreEntry disk n = true → l = n ∨ strLt l n) →
        (files.foldl (scanPathStep disk) entries).Pairwise strLt := by
  intro files
  induction files with
  | nil => intro _ _ entries hse _ _; exact hse
  | cons f rest ih =>
    intro hpf hsub entries hse hev hbound
    rw [List.foldl_cons]
    have hfdisk : f ∈ disk := hsub f (List.mem_cons_self _ _)
    have hfrest : ∀ g ∈ rest, strLt f g := (List.pairwise_cons.mp hpf).1
    have hpr : rest.Pairwise strLt := (List.pairwise_cons.mp hpf).2
    have hsubr : ∀ g ∈ rest, g ∈ disk := fun g hg => hsub g (List.mem_cons_of_mem _ hg)
    have hpair : ∀ n, candidateOf f = some n → validateStoreEntry disk n = true →
        ∀ g ∈ rest, ∀ n', candidateOf g = some n' → validateStoreEntry disk n' = true →
          n = n' ∨ strLt n n' := by
      intro n hcn hvn g hg n' hcg hvg
      by_cases hnn : n = n'
      · exact Or.inl hnn
      · right
        obtain ⟨e, _, hfe⟩ := candidateOf_decomp hcn
        obtain ⟨e', _, hge⟩ := candidateOf_decomp hcg
        have hmem : n ∈ validCands disk := mem_validCands.mpr ⟨⟨f, hfdisk, hcn⟩, hvn⟩
        have hmem' : n' ∈ validCands disk := mem_validCands.mpr ⟨⟨g, hsubr g hg, hcg⟩, hvg⟩
        have h1 : ¬ (n <+: n') := hnp n hmem n' hmem' hnn
        have h2 : ¬ (n' <+: n) := hnp n' hmem' n hmem (Ne.symm hnn)
        have hlex : List.Lex (· < ·) (n ++ e) (n' ++ e') := by
          rw [← hfe, ← hge]; exact hfrest g hg
        exact (lex_append_iff h1 h2 e e').mp hlex
    rcases scanPathStep_cases disk entries f with he | ⟨n, hcn, hvn, hlast, he⟩
    · rw [he]
      apply ih hpr hsubr entries hse hev
      intro l hl g hg n' hcg hvg
      exact hbound l hl g (List.mem_cons_of_mem _ hg) n' hcg hvg
    · rw [he]
      have hall : ∀ x ∈ entries, strLt x n := by
        intro x hx
        obtain ⟨l, hle⟩ := exists_getLast?_of_ne_nil (List.ne_nil_of_mem hx)
        have hln : l = n ∨ strLt l n :=
          hbound l hle f (List.mem_cons_self _ _) n hcn hvn
        have hln' : strLt l n := by
          rcases hln with rfl | hlt
          · exact absurd hle hlast
          · exact hlt
        rcases sorted_last_max hse hle x hx with rfl | hxl
        · exact hln'
        · exact IsTrans.trans x l n hxl hln'
      apply ih hpr hsubr (entries ++ [n])
      · rw [List.pairwise_append]
        refine ⟨hse, by simp, ?_⟩
        intro a ha b hb
        have hb' : b = n := by simpa using hb
        subst hb'
        exact hall a ha
      · intro x hx
        rcases List.mem_append.mp hx with hx' | hx'
        · exact hev x hx'
        · have hx'' : x = n := by simpa using hx'
          subst hx''
          exact mem_validCands.mpr ⟨⟨f, hfdisk, hcn⟩, hvn⟩
      · intro l hl g hg n' hcg hvg
        rw [List.getLast?_concat] at hl
        have hln : l = n := (Option.some.inj hl).symm
        subst hln
        exact hpair l hcn hvn g hg n' hcg hvg

/-- C1 (amended): over a lexically sorted store listing in which no two
distinct eligible candidate names are related by the string-prefix
relation, the index built by the scan of `Open`/`Init` is in strictly
ascending name order with no duplicates, and a cursor obtained from
`Entries()` yields exactly that sequence.  (The prefix proviso is
forced: prefix-related names such as `a-b` and `a` break the
scan's dedup-against-last scheme, see the counterexample.) -/
theorem scan_index_sorted (disk : List Str)
    (hsort : disk.Pairwise strLt)
    (hnp : ∀ m ∈ validCands disk, ∀ n ∈ validCands disk, m ≠ n → ¬ (m <+: n)) :
    (scan disk).Pairwise strLt ∧ (scan disk).Nodup ∧
      cursorYield (entriesCursor (scan disk)) = scan disk := by
  have hs : (scan disk).Pairwise strLt :=
    scanFold_sorted_aux disk hnp disk hsort (fun _ hf => hf) [] (by simp) (by simp)
      (by simp)
  refine ⟨hs, ?_, cursorYield_entries _⟩
  refine hs.imp ?_
  intro a b hab heq
  subst heq
  exact strLt_irrefl a hab

/-- Witness for C1: a two-entry layout (`a`, `b`, each with `.crt` and
`.json`) satisfies the hypotheses and yields the sorted index. -/
theorem scan_index_sorted_witness :
    (scan [['a', '.', 'c', 'r', 't'], ['a', '.', 'j', 's', 'o', 'n'],
        ['b', '.', 'c', 'r', 't'], ['b', '.', 'j', 's', 'o', 'n']]).Pairwise strLt ∧
      (scan [['a', '.', 'c', 'r', 't'], ['a', '.', 'j', 's', 'o', 'n'],
        ['b', '.', 'c', 'r', 't'], ['b', '.', 'j', 's', 'o', 'n']]).Nodup ∧
      cursorYield (entriesCursor (scan [['a', '.', 'c', 'r', 't'],
        ['a', '.', 'j', 's', 'o', 'n'], ['b', '.', 'c', 'r', 't'],
        ['b', '.', 'j', 's', 'o', 'n']])) =
        scan [['a', '.', 'c', 'r', 't'], ['a', '.', 'j', 's', 'o', 'n'],
          ['b', '.', 'c', 'r', 't'], ['b', '.', 'j', 's', 'o', 'n']] :=
  scan_index_sorted _ (by decide) (by decide)

/-- C1 counterexample: the sorted layout for the two valid entry names
`a-b` and `a` (a dash sorts before a dot, so all `a-b.*` files precede
all `a.*` files in the walk) produces the index `[a-b, a]`, which is not
in ascending order, and the `Entries()` cursor yields it in that broken
order. -/
theorem scan_unsorted_cex :
    ([['a', '-', 'b', '.', 'c', 'r', 't'], ['a', '-', 'b', '.', 'j', 's', 'o', 'n'],
        ['a', '.', 'c', 'r', 't'], ['a', '.', 'j', 's', 'o', 'n']] :
          List Str).Pairwise strLt ∧
      ValidEntryName ['a'] ∧ ValidEntryName ['a', '-', 'b'] ∧
      validateStoreEntry [['a', '-', 'b', '.', 'c', 'r', 't'],
        ['a', '-', 'b', '.', 'j', 's', 'o', 'n'], ['a', '.', 'c', 'r', 't'],
        ['a', '.', 'j', 's', 'o', 'n']] ['a'] = true ∧
      validateStoreEntry [['a', '-', 'b', '.', 'c', 'r', 't'],
        ['a', '-', 'b', '.', 'j', 's', 'o', 'n'], ['a', '.', 'c', 'r', 't'],
        ['a', '.', 'j', 's', 'o', 'n']] ['a', '-', 'b'] = true ∧
      scan [['a', '-', 'b', '.', 'c', 'r', 't'], ['a', '-', 'b', '.', 'j', 's', 'o', 'n'],
        ['a', '.', 'c', 'r', 't'], ['a', '.', 'j', 's', 'o', 'n']] =
        [['a', '-', 'b'], ['a']] ∧
      ¬ (scan [['a', '-', 'b', '.', 'c', 'r', 't'], ['a', '-', 'b', '.', 'j', 's', 'o', 'n'],
        ['a', '.', 'c', 'r', 't'], ['a', '.', 'j', 's', 'o', 'n']]).Pairwise strLt ∧
      cursorYield (entriesCursor (scan [['a', '-', 'b', '.', 'c', 'r', 't'],
        ['a', '-', 'b', '.', 'j', 's', 'o', 'n'], ['a', '.', 'c', 'r', 't'],
        ['a', '.', 'j', 's', 'o', 'n']])) = [['a', '-', 'b'], ['a']] ∧
      strLt ['a'] ['a', '-', 'b'] := by
  decide

theorem mem_insertSorted {a x : Str} {l : List Str} :
    a ∈ insertSorted x l ↔ a = x ∨ a ∈ l := by
  induction l with
  | nil => simp [insertSorted]
  | cons y t ih =>
    by_cases h : strLt x y
    · simp [insertSorted, h]
    · simp only [insertSorted, if_neg h, List.mem_cons, ih]
      tauto

theorem mem_sortStrings {a : Str} {l : List Str} :
    a ∈ sortStrings l ↔ a ∈ l := by
  induction l with
  | nil => simp [sortStrings]
  | cons y t ih =>
    simp only [sortStrings, List.foldr_cons, mem_insertSorted, List.mem_cons]
    rw [sortStrings] at ih
    rw [ih]

/-- C4 (code bug): a cursor is not a snapshot.  With the index
`["b","c","d"]` in a capacity-4 backing array, a later
`CreateCertificate("a")` appends into the spare cell of the shared array
and re-sorts it in place, so the live cursor now yields
`["a","b","c"]` instead of the `["b","c","d"]` it viewed at creation
time — it both observes the new entry and loses `"d"`. -/
theorem cursor_snapshot_broken :
    indexBCD.buf.take indexBCD.len = [['b'], ['c'], ['d']] ∧
      (createAppendsIndex indexBCD ['a']).2 = false ∧
      cursorViewAfter indexBCD (createAppendsIndex indexBCD ['a']).1
          (createAppendsIndex indexBCD ['a']).2 = [['a'], ['b'], ['c']] ∧
      cursorViewAfter indexBCD (createAppendsIndex indexBCD ['a']).1
          (createAppendsIndex indexBCD ['a']).2 ≠ [['b'], ['c'], ['d']] := by
  decide

theorem not_suffix_append_of_head_ne {a e : Str} {x y : Char} {ar er : Str}
    (ha : a.reverse = x :: ar) (he : e.reverse = y :: er) (hxy : x ≠ y)
    (n : Str) : ¬ (a <:+ n ++ e) := by
  intro h
  have h2 : a.reverse <+: (n ++ e).reverse := List.reverse_prefix.mpr h
  rw [List.reverse_append, ha, he, List.cons_append] at h2
  exact hxy (List.cons_prefix_cons.mp h2).1

theorem sfxT_key (n : Str) : decide (keyExtension <:+ n ++ keyExtension) = true :=
  decide_eq_true (List.suffix_append n keyExtension)

theorem sfxT_crt (n : Str) : decide (crtExtension <:+ n ++ crtExtension) = true :=
  decide_eq_true (List.suffix_append n crtExtension)

theorem sfxT_csr (n : Str) : decide (csrExtension <:+ n ++ csrExtension) = true :=
  decide_eq_true (List.suffix_append n csrExtension)

theorem sfxT_json (n : Str) :
    decide (attributesExtension <:+ n ++ attributesExtension) = true :=
  decide_eq_true (List.suffix_append n attributesExtension)

theorem sfxF_crt_key (n : Str) : decide (crtExtension <:+ n ++ keyExtension) = false := by
  apply decide_eq_false
  exact not_suffix_append_of_head_ne
    (show crtExtension.reverse = 't' :: ['r', 'c', '.'] from rfl)
    (show keyExtension.reverse = 'y' :: ['e', 'k', '.'] from rfl) (by decide) n

theorem sfxF_csr_key (n : Str) : decide (csrExtension <:+ n ++ keyExtension) = false := by
  apply decide_eq_false
  exact not_suffix_append_of_head_ne
    (show csrExtension.reverse = 'r' :: ['s', 'c', '.'] from rfl)
    (show keyExtension.reverse = 'y' :: ['e', 'k', '.'] from rfl) (by decide) n

theorem sfxF_json_key (n : Str) :
    decide (attributesExtension <:+ n ++ keyExtension) = false := by
  apply decide_eq_false
  exact not_suffix_append_of_head_ne
    (show attributesExtension.reverse = 'n' :: ['o', 's', 'j', '.'] from rfl)
    (show keyExtension.reverse = 'y' :: ['e', 'k', '.'] from rfl) (by decide) n

theorem sfxF_json_crt (n : Str) :
    decide (attributesExtension <:+ n ++ crtExtension) = false := by
  apply decide_eq_false
  exact not_suffix_append_of_head_ne
    (show attributesExtension.reverse = 'n' :: ['o', 's', 'j', '.'] from rfl)
    (show crtExtension.reverse = 't' :: ['r', 'c', '.'] from rfl) (by decide) n

theorem sfxF_json_csr (n : Str) :
    decide (attributesExtension <:+ n ++ csrExtension) = false := by
  apply decide_eq_false
  exact not_suffix_append_of_head_ne
    (show attributesExtension.reverse = 'n' :: ['o', 's', 'j', '.'] from rfl)
    (show csrExtension.reverse = 'r' :: ['s', 'c', '.'] from rfl) (by decide) n

theorem pathNe_crt_key (n : Str) : n ++ crtExtension ≠ n ++ keyExtension :=
  fun h => absurd (List.append_cancel_left h) (by decide)

theorem pathNe_csr_key (n : Str) : n ++ csrExtension ≠ n ++ keyExtension :=
  fun h => absurd (List.append_cancel_left h) (by decide)

theorem pathNe_json_key (n : Str) : n ++ attributesExtension ≠ n ++ keyExtension :=
  fun h => absurd (List.append_cancel_left h) (by decide)

theorem pathNe_json_crt (n : Str) : n ++ attributesExtension ≠ n ++ crtExtension :=
  fun h => absurd (List.append_cancel_left h) (by decide)

theorem pathNe_json_csr (n : Str) : n ++ attributesExtension ≠ n ++ csrExtension :=
  fun h => absurd (List.append_cancel_left h) (by decide)

theorem pathNe_key_crt (n : Str) : n ++ keyExtension ≠ n ++ crtExtension :=
  fun h => absurd (List.append_cancel_left h) (by decide)

theorem pathNe_key_csr (n : Str) : n ++ keyExtension ≠ n ++ csrExtension :=
  fun h => absurd (List.append_cancel_left h) (by decide)

theorem erase_one {d : List Str} {p : Str} (hp : p ∉ d) : (d ++ [p]).erase p = d := by
  rw [List.erase_append_right _ hp, List.erase_cons_head, List.append_nil]

theorem erase_two {d : List Str} {p q : Str} (hp : p ∉ d) (hq : q ∉ d) :
    ((d ++ [p, q]).erase p).erase q = d := by
  rw [List.erase_append_right _ hp, List.erase_cons_head,
    List.erase_append_right _ hq, List.erase_cons_head, List.append_nil]

theorem erase_three {d : List Str} {p q r : Str} (hp : p ∉ d) (hq : q ∉ d)
    (hr : r ∉ d) :
    (((d ++ [p, q, r]).erase p).erase q).erase r = d := by
  rw [List.erase_append_right _ hp, List.erase_cons_head,
    List.erase_append_right _ hq, List.erase_cons_head,
    List.erase_append_right _ hr, List.erase_cons_head, List.append_nil]

theorem pathNe_key_json (n : Str) : n ++ keyExtension ≠ n ++ attributesExtension :=
  fun h => absurd (List.append_cancel_left h) (by decide)

theorem pathNe_crt_json (n : Str) : n ++ crtExtension ≠ n ++ attributesExtension :=
  fun h => absurd (List.append_cancel_left h) (by decide)

theorem pathNe_csr_json (n : Str) : n ++ csrExtension ≠ n ++ attributesExtension :=
  fun h => absurd (List.append_cancel_left h) (by decide)

theorem newFileGroup_cert (name : Str) :
    newFileGroup name [keyExtension, crtExtension, attributesExtension] =
      fgCertOpened name false false false := by
  simp [newFileGroup, fgCertOpened]

theorem newFileGroup_csr (name : Str) :
    newFileGroup name [keyExtension, csrExtension, attributesExtension] =
      fgCsrOpened name false false false := by
  simp [newFileGroup, fgCsrOpened]

theorem fgCreate_cert_key (disk : List Str) (name : Str) (c j : Bool) :
    fgCreate disk (fgCertOpened name false c j) keyExtension =
      if name ++ keyExtension ∈ disk then none
      else some (disk ++ [name ++ keyExtension], fgCertOpened name true c j) := by
  unfold fgCreate fgCertOpened
  simp only [List.find?, sfxT_key]
  by_cases hmem : name ++ keyExtension ∈ disk
  · simp [hmem]
  · simp [hmem, pathNe_crt_key name, pathNe_json_key name]

theorem fgCreate_cert_crt (disk : List Str) (name : Str) (j : Bool) :
    fgCreate disk (fgCertOpened name true false j) crtExtension =
      if name ++ crtExtension ∈ disk then none
      else some (disk ++ [name ++ crtExtension], fgCertOpened name true true j) := by
  unfold fgCreate fgCertOpened
  simp only [List.find?, sfxF_crt_key, sfxT_crt]
  by_cases hmem : name ++ crtExtension ∈ disk
  · simp [hmem]
  · simp [hmem, pathNe_key_crt name, pathNe_json_crt name]

theorem fgCreate_cert_json (disk : List Str) (name : Str) :
    fgCreate disk (fgCertOpened name true true false) attributesExtension =
      if name ++ attributesExtension ∈ disk then none
      else some (disk ++ [name ++ attributesExtension], fgCertOpened name true true true) := by
  unfold fgCreate fgCertOpened
  simp only [List.find?, sfxF_json_key, sfxF_json_crt, sfxT_json]
  by_cases hmem : name ++ attributesExtension ∈ disk
  · simp [hmem]
  · simp [hmem, pathNe_key_json name, pathNe_crt_json name]

theorem fgCreate_csr_key (disk : List Str) (name : Str) (c j : Bool) :
    fgCreate disk (fgCsrOpened name false c j) keyExtension =
      if name ++ keyExtension ∈ disk then none
      else some (disk ++ [name ++ keyExtension], fgCsrOpened name true c j) := by
  unfold fgCreate fgCsrOpened
  simp only [List.find?, sfxT_key]
  by_cases hmem : name ++ keyExtension ∈ disk
  · simp [hmem]
  · simp [hmem, pathNe_csr_key name, pathNe_json_key name]

theorem fgCreate_csr_csr (disk : List Str) (name : Str) (j : Bool) :
    fgCreate disk (fgCsrOpened name true false j) csrExtension =
      if name ++ csrExtension ∈ disk then none
      else some (disk ++ [name ++ csrExtension], fgCsrOpened name true true j) := by
  unfold fgCreate fgCsrOpened
  simp only [List.find?, sfxF_csr_key, sfxT_csr]
  by_cases hmem : name ++ csrExtension ∈ disk
  · simp [hmem]
  · simp [hmem, pathNe_key_csr name, pathNe_json_csr name]

theorem fgCreate_csr_json (disk : List Str) (name : Str) :
    fgCreate disk (fgCsrOpened name true true false) attributesExtension =
      if name ++ attributesExtension ∈ disk then none
      else some (disk ++ [name ++ attributesExtension], fgCsrOpened name true true true) := by
  unfold fgCreate fgCsrOpened
  simp only [List.find?, sfxF_json_key, sfxF_json_csr, sfxT_json]
  by_cases hmem : name ++ attributesExtension ∈ disk
  · simp [hmem]
  · simp [hmem, pathNe_key_json name, pathNe_csr_json name]

theorem createCertificate_shape (env : CreateEnv) (disk entries : List Str)
    (name : Str) :
    createCertificate env disk entries name = (disk, entries, false) ∨
      createCertificate env disk entries name =
        (disk ++ [name ++ keyExtension] ++ [name ++ crtExtension] ++
            [name ++ attributesExtension],
          sortStrings (entries ++ [name]), true) := by
  by_cases h1 : name ++ keyExtension ∈ disk
  · simp only [createCertificate, newFileGroup_cert, fgCreate_cert_key, if_pos h1]
    left
    simp [fgClose, fgCertOpened]
  · by_cases h2 : name ++ crtExtension ∈ disk ++ [name ++ keyExtension]
    · simp only [createCertificate, newFileGroup_cert, fgCreate_cert_key, if_neg h1,
        fgCreate_cert_crt, if_pos h2]
      left
      simp only [fgClose, fgCertOpened, List.foldl]
      simp [erase_one h1]
    · have h2' : name ++ crtExtension ∉ disk := by
        intro hc; exact h2 (List.mem_append.mpr (Or.inl hc))
      by_cases h3 : name ++ attributesExtension ∈ disk ++ [name ++ keyExtension] ++
          [name ++ crtExtension]
      · simp only [createCertificate, newFileGroup_cert, fgCreate_cert_key, if_neg h1,
          fgCreate_cert_crt, if_neg h2, fgCreate_cert_json, if_pos h3]
        left
        simp only [fgClose, fgCertOpened, List.foldl]
        simp [erase_two h1 h2']
      · have h3' : name ++ attributesExtension ∉ disk := by
          intro hc
          exact h3 (List.mem_append.mpr (Or.inl (List.mem_append.mpr (Or.inl hc))))
        have hclose :
            fgClose (disk ++ [name ++ keyExtension] ++ [name ++ crtExtension] ++
                [name ++ attributesExtension]) (fgCertOpened name true true true) = disk := by
          simp only [fgClose, fgCertOpened, List.foldl]
          simp [erase_three h1 h2' h3']
        have hkeep :
            fgClose (disk ++ [name ++ keyExtension] ++ [name ++ crtExtension] ++
                [name ++ attributesExtension]) (fgKeep (fgCertOpened name true true true)) =
              disk ++ [name ++ keyExtension] ++ [name ++ crtExtension] ++
                [name ++ attributesExtension] := by
          simp [fgClose, fgKeep, fgCertOpened]
        simp only [createCertificate, newFileGroup_cert, fgCreate_cert_key, if_neg h1,
          fgCreate_cert_crt, if_neg h2, fgCreate_cert_json, if_neg h3]
        split_ifs
        · exact Or.inl (by rw [hclose])
        · exact Or.inl (by rw [hclose])
        · exact Or.inl (by rw [hclose])
        · exact Or.inl (by rw [hclose])
        · exact Or.inr (by rw [hkeep])

theorem createCertificateRequest_shape (env : CreateEnv) (disk entries : List Str)
    (name : Str) :
    createCertificateRequest env disk entries name = (disk, entries, false) ∨
      createCertificateRequest env disk entries name =
        (disk ++ [name ++ keyExtension] ++ [name ++ csrExtension] ++
            [name ++ attributesExtension],
          sortStrings (entries ++ [name]), true) := by
  by_cases h1 : name ++ keyExtension ∈ disk
  · simp only [createCertificateRequest, newFileGroup_csr, fgCreate_csr_key, if_pos h1]
    left
    simp [fgClose, fgCsrOpened]
  · by_cases h2 : name ++ csrExtension ∈ disk ++ [name ++ keyExtension]
    · simp only [createCertificateRequest, newFileGroup_csr, fgCreate_csr_key, if_neg h1,
        fgCreate_csr_csr, if_pos h2]
      left
      simp only [fgClose, fgCsrOpened, List.foldl]
      simp [erase_one h1]
    · have h2' : name ++ csrExtension ∉ disk := by
        intro hc; exact h2 (List.mem_append.mpr (Or.inl hc))
      by_cases h3 : name ++ attributesExtension ∈ disk ++ [name ++ keyExtension] ++
          [name ++ csrExtension]
      · simp only [createCertificateRequest, newFileGroup_csr, fgCreate_csr_key, if_neg h1,
          fgCreate_csr_csr, if_neg h2, fgCreate_csr_json, if_pos h3]
        left
        simp only [fgClose, fgCsrOpened, List.foldl]
        simp [erase_two h1 h2']
      · have h3' : name ++ attributesExtension ∉ disk := by
          intro hc
          exact h3 (List.mem_append.mpr (Or.inl (List.mem_append.mpr (Or.inl hc))))
        have hclose :
            fgClose (disk ++ [name ++ keyExtension] ++ [name ++ csrExtension] ++
                [name ++ attributesExtension]) (fgCsrOpened name true true true) = disk := by
          simp only [fgClose, fgCsrOpened, List.foldl]
          simp [erase_three h1 h2' h3']
        have hkeep :
            fgClose (disk ++ [name ++ keyExtension] ++ [name ++ csrExtension] ++
                [name ++ attributesExtension]) (fgKeep (fgCsrOpened name true true true)) =
              disk ++ [name ++ keyExtension] ++ [name ++ csrExtension] ++
                [name ++ attributesExtension] := by
          simp [fgClose, fgKeep, fgCsrOpened]
        simp only [createCertificateRequest, newFileGroup_csr, fgCreate_csr_key, if_neg h1,
          fgCreate_csr_csr, if_neg h2, fgCreate_csr_json, if_neg h3]
        split_ifs
        · exact Or.inl (by rw [hclose])
        · exact Or.inl (by rw [hclose])
        · exact Or.inl (by rw [hclose])
        · exact Or.inl (by rw [hclose])
        · exact Or.inr (by rw [hkeep])

/-- C2 (amended): when `CreateCertificate` or `CreateCertificateRequest`
fails — at a staging collision, at `factory.New`, or at any write — the
deferred `close` removes exactly the files the group opened, so the disk
and the in-memory index are both left exactly as before the call (in
particular no file created by this call survives; files of the colliding
name that existed before the call are untouched, which is what makes the
original claim's "no file of the form name.<ext> exists" too strong).
Only on success are the three staged files kept and the name added to
the re-sorted index. -/
theorem create_rollback (env : CreateEnv) (disk entries : List Str) (name : Str) :
    ((createCertificate env disk entries name).2.2 = false →
        (createCertificate env disk entries name).1 = disk ∧
          (createCertificate env disk entries name).2.1 = entries) ∧
      ((createCertificate env disk entries name).2.2 = true →
        name ++ keyExtension ∈ (createCertificate env disk entries name).1 ∧
          name ++ crtExtension ∈ (createCertificate env disk entries name).1 ∧
            name ++ attributesExtension ∈ (createCertificate env disk entries name).1 ∧
              name ∈ (createCertificate env disk entries name).2.1) ∧
      ((createCertificateRequest env disk entries name).2.2 = false →
        (createCertificateRequest env disk entries name).1 = disk ∧
          (createCertificateRequest env disk entries name).2.1 = entries) ∧
      ((createCertificateRequest env disk entries name).2.2 = true →
        name ++ keyExtension ∈ (createCertificateRequest env disk entries name).1 ∧
          name ++ csrExtension ∈ (createCertificateRequest env disk entries name).1 ∧
            name ++ attributesExtension ∈ (createCertificateRequest env disk entries name).1 ∧
              name ∈ (createCertificateRequest env disk entries name).2.1) := by
  refine ⟨?_, ?_, ?_, ?_⟩
  · intro hf
    rcases createCertificate_shape env disk entries name with h | h
    · rw [h]; exact ⟨rfl, rfl⟩
    · rw [h] at hf; simp at hf
  · intro ht
    rcases createCertificate_shape env disk entries name with h | h
    · rw [h] at ht; simp at ht
    · rw [h]
      refine ⟨by simp, by simp, by simp, ?_⟩
      exact mem_sortStrings.mpr (by simp)
  · intro hf
    rcases createCertificateRequest_shape env disk entries name with h | h
    · rw [h]; exact ⟨rfl, rfl⟩
    · rw [h] at hf; simp at hf
  · intro ht
    rcases createCertificateRequest_shape env disk entries name with h | h
    · rw [h] at ht; simp at ht
    · rw [h]
      refine ⟨by simp, by simp, by simp, ?_⟩
      exact mem_sortStrings.mpr (by simp)

/-- Witness for C2: a failing create (factory failure) on an empty store
leaves disk and index empty; a successful request create registers the
name. -/
theorem create_rollback_witness :
    (createCertificate ⟨true, false, false, false⟩ [] [] ['x']).1 = [] ∧
      (createCertificate ⟨true, false, false, false⟩ [] [] ['x']).2.1 = [] ∧
      ['x'] ∈ (createCertificateRequest ⟨false, false, false, false⟩ [] [] ['x']).2.1 := by
  refine ⟨((create_rollback ⟨true, false, false, false⟩ [] [] ['x']).1 (by decide)).1,
    ((create_rollback ⟨true, false, false, false⟩ [] [] ['x']).1 (by decide)).2,
    ((create_rollback ⟨false, false, false, false⟩ [] [] ['x']).2.2.2 (by decide)).2.2.2⟩

/-- C2 counterexample: with `x.crt` already on disk, `CreateCertificate
("x", …)` fails at the exclusive-create of the `.crt` member, yet
`x.crt` (the pre-existing file) still exists afterwards — so "after a
failed create no file of the form name.<ext> exists on disk" is false
as stated. -/
theorem create_collision_cex :
    (createCertificate ⟨false, false, false, false⟩ [['x', '.', 'c', 'r', 't']] []
        ['x']).2.2 = false ∧
      (['x'] ++ crtExtension) ∈
        (createCertificate ⟨false, false, false, false⟩ [['x', '.', 'c', 'r', 't']] []
          ['x']).1 := by
  decide

end FsStore

namespace Acme

theorem evalConfigLoopStep_fst (domain : Str) (st : Bool × Option DomainConfig)
    (dc : DomainConfig) :
    (evalConfigLoopStep domain st dc).1 = (st.1 || decide (dc.domain <:+ domain)) := by
  by_cases hs : dc.domain <:+ domain
  · simp [evalConfigLoopStep, hs]
  · simp [evalConfigLoopStep, hs]

theorem evalConfigLoopStep_snd (domain : Str) (st : Bool × Option DomainConfig)
    (dc : DomainConfig) : (evalConfigLoopStep domain st dc).2 = some dc := by
  by_cases hs : dc.domain <:+ domain
  · simp [evalConfigLoopStep, hs]
  · simp [evalConfigLoopStep, hs]

theorem evalConfigLoop_fst (domain : Str) :
    ∀ (table : List DomainConfig) (st : Bool × Option DomainConfig),
      (table.foldl (evalConfigLoopStep domain) st).1 =
        (st.1 || table.any (fun dc => decide (dc.domain <:+ domain))) := by
  intro table
  induction table with
  | nil => intro st; simp
  | cons dc rest ih =>
    intro st
    rw [List.foldl_cons, ih, evalConfigLoopStep_fst, List.any_cons, Bool.or_assoc]

theorem evalConfigLoop_snd (domain : Str) :
    ∀ (table : List DomainConfig) (st : Bool × Option DomainConfig)
      (l : DomainConfig), table.getLast? = some l →
      (table.foldl (evalConfigLoopStep domain) st).2 = some l := by
  intro table
  induction table with
  | nil => intro st l h; simp at h
  | cons dc rest ih =>
    intro st l h
    rw [List.foldl_cons]
    cases rest with
    | nil =>
      have hdl : dc = l := by simpa [List.getLast?] using h
      subst hdl
      simp [evalConfigLoopStep_snd]
    | cons c u =>
      rw [List.getLast?_cons_cons] at h
      exact ih _ l h

/-- C3 (amended): for a non-empty domain list the prepared name is
`domains[0] + "."` with the dot appended unconditionally (also when the
name already ends in `"."`); the call fails with an
InvalidRequest-style error iff no entry of the config's domain table
has a domain value that is a suffix of the prepared name; and when some
entry matches, the returned domain config is the table entry iterated
*last* in the map's iteration order — not the longest-suffix match —
because the code stores the address of the shared Go 1.20 range-loop
variable. -/
theorem evalDomainConfig_spec (d0 : Str) (rest : List Str)
    (table : List Acme.DomainConfig) :
    (∀ res, Acme.evalDomainConfig (d0 :: rest) table = .ok res →
        table.getLast? = some res ∧
          ∃ dc ∈ table, dc.domain <:+ (d0 ++ ['.'])) ∧
      (Acme.evalDomainConfig (d0 :: rest) table = .err ↔
        ∀ dc ∈ table, ¬ dc.domain <:+ (d0 ++ ['.'])) := by
  constructor
  · intro res h
    simp only [Acme.evalDomainConfig] at h
    rcases hF : table.foldl (Acme.evalConfigLoopStep (d0 ++ ['.'])) (false, none)
      with ⟨b, o⟩
    rw [hF] at h
    have hfst : b = (false || table.any (fun dc => decide (dc.domain <:+ (d0 ++ ['.'])))) := by
      have hq := Acme.evalConfigLoop_fst (d0 ++ ['.']) table (false, none)
      rw [hF] at hq
      exact hq
    rw [Bool.false_or] at hfst
    cases b with
    | false => cases o <;> simp at h
    | true =>
      cases o with
      | none => simp at h
      | some dc =>
        have hres : dc = res := by simpa using h
        subst hres
        have hany : table.any (fun d => decide (d.domain <:+ (d0 ++ ['.']))) = true :=
          hfst.symm
        obtain ⟨d, hd, hpd⟩ := List.any_eq_true.mp hany
        have hsfx : d.domain <:+ (d0 ++ ['.']) := of_decide_eq_true hpd
        obtain ⟨l, hl⟩ := FsStore.exists_getLast?_of_ne_nil (List.ne_nil_of_mem hd)
        have hld2 : dc = l := by
          have hq := Acme.evalConfigLoop_snd (d0 ++ ['.']) table (false, none) l hl
          rw [hF] at hq
          simpa using hq
        subst hld2
        exact ⟨hl, d, hd, hsfx⟩
  · constructor
    · intro h d hd hsfx
      have hany : table.any (fun d => decide (d.domain <:+ (d0 ++ ['.']))) = true :=
        List.any_eq_true.mpr ⟨d, hd, decide_eq_true hsfx⟩
      obtain ⟨l, hl⟩ := FsStore.exists_getLast?_of_ne_nil (List.ne_nil_of_mem hd)
      simp only [Acme.evalDomainConfig] at h
      rcases hF : table.foldl (Acme.evalConfigLoopStep (d0 ++ ['.'])) (false, none)
        with ⟨b, o⟩
      rw [hF] at h
      have hfst : b = (false || table.any (fun dc => decide (dc.domain <:+ (d0 ++ ['.'])))) := by
        have hq := Acme.evalConfigLoop_fst (d0 ++ ['.']) table (false, none)
        rw [hF] at hq
        exact hq
      have hb : b = true := by rw [hfst, Bool.false_or]; exact hany
      subst hb
      have hsnd : o = some l := by
        have hq := Acme.evalConfigLoop_snd (d0 ++ ['.']) table (false, none) l hl
        rw [hF] at hq
        exact hq
      subst hsnd
      simp at h
    · intro hall
      have hany : table.any (fun d => decide (d.domain <:+ (d0 ++ ['.']))) = false := by
        rcases h2 : table.any (fun d => decide (d.domain <:+ (d0 ++ ['.']))) with _ | _
        · rfl
        · obtain ⟨d, hd, hpd⟩ := List.any_eq_true.mp h2
          exact absurd (of_decide_eq_true hpd) (hall d hd)
      simp only [Acme.evalDomainConfig]
      rcases hF : table.foldl (Acme.evalConfigLoopStep (d0 ++ ['.'])) (false, none)
        with ⟨b, o⟩
      have hfst : b = (false || table.any (fun dc => decide (dc.domain <:+ (d0 ++ ['.'])))) := by
        have hq := Acme.evalConfigLoop_fst (d0 ++ ['.']) table (false, none)
        rw [hF] at hq
        exact hq
      have hb : b = false := by rw [hfst, Bool.false_or]; exact hany
      subst hb
      cases o <;> simp

/-- Witness for C3: for the request `xa` against the one-entry table
`{a.}` the prepared name is `xa.`, the sole (hence last-iterated) entry
matches and is returned. -/
theorem evalDomainConfig_spec_witness :
    ([(⟨['a', '.'], ⟨false, [], 0⟩, ⟨false, [], 0⟩⟩ : Acme.DomainConfig)]).getLast? =
        some ⟨['a', '.'], ⟨false, [], 0⟩, ⟨false, [], 0⟩⟩ ∧
      ∃ dc ∈ [(⟨['a', '.'], ⟨false, [], 0⟩, ⟨false, [], 0⟩⟩ : Acme.DomainConfig)],
        dc.domain <:+ (['x', 'a'] ++ ['.']) :=
  (evalDomainConfig_spec ['x', 'a'] []
    [⟨['a', '.'], ⟨false, [], 0⟩, ⟨false, [], 0⟩⟩]).1
    ⟨['a', '.'], ⟨false, [], 0⟩, ⟨false, [], 0⟩⟩ (by decide)

/-- C3 counterexample, refuting both parts of the claimed selection.
(1) Trailing dot: for the request `["a."]` against the table `{"a."}`
the claim's prepared name is `a.` (no second dot) and the entry is a
suffix of it, so the claim predicts success — but the code prepares
`a..`, finds no suffix match and fails.  (2) Longest suffix: for the
request `["b.a"]` against the table `{"b.a.", "a."}` iterated in that
order, both entries are suffixes of the prepared name `b.a.` and
`b.a.` is strictly longer, so the claim predicts the `b.a.` entry —
but the code returns the last-iterated entry `a.`. -/
theorem evalDomainConfig_selection_cex :
    claimPreparedName ['a', '.'] = ['a', '.'] ∧
      (⟨['a', '.'], ⟨false, [], 0⟩, ⟨false, [], 0⟩⟩ : Acme.DomainConfig).domain <:+
        claimPreparedName ['a', '.'] ∧
      Acme.evalDomainConfig [['a', '.']]
        [⟨['a', '.'], ⟨false, [], 0⟩, ⟨false, [], 0⟩⟩] = .err ∧
      (⟨['b', '.', 'a', '.'], ⟨false, [], 0⟩, ⟨false, [], 0⟩⟩ :
          Acme.DomainConfig).domain <:+ (['b', '.', 'a'] ++ ['.']) ∧
      (⟨['a', '.'], ⟨false, [], 0⟩, ⟨false, [], 0⟩⟩ : Acme.DomainConfig).domain <:+
        (['b', '.', 'a'] ++ ['.']) ∧
      (['a', '.'] : Str).length < (['b', '.', 'a', '.'] : Str).length ∧
      Acme.evalDomainConfig [['b', '.', 'a']]
        [⟨['b', '.', 'a', '.'], ⟨false, [], 0⟩, ⟨false, [], 0⟩⟩,
          ⟨['a', '.'], ⟨false, [], 0⟩, ⟨false, [], 0⟩⟩] =
        .ok ⟨['a', '.'], ⟨false, [], 0⟩, ⟨false, [], 0⟩⟩ := by
  decide

end Acme

namespace State

/-- C8 (amended): the filesystem state handler rejects every absolute
input path, and accepts a relative path iff the cleaned join of root and
path passes a textual string-prefix check against the cleaned absolute
root; every accepted path's resolved value therefore extends the root
as a string, but need not lie under the root directory itself (see the
counterexample), and no symlink resolution is performed — the check is
purely lexical and touches no filesystem state. -/
theorem fullPath_guard (cwd base p : Str) :
    (isAbs p = true → fullPath cwd base p = .err) ∧
      (∀ fp, fullPath cwd base p = .ok fp →
        isAbs p = false ∧ (goAbs cwd base) <+: fp ∧
          fp = goAbs cwd (goJoin (goAbs cwd base) p)) ∧
      (isAbs p = false →
        ¬ ((goAbs cwd base) <+: goAbs cwd (goJoin (goAbs cwd base) p)) →
        fullPath cwd base p = .err) := by
  refine ⟨?_, ?_, ?_⟩
  · intro h
    unfold fullPath
    rw [if_pos h]
  · intro fp h
    unfold fullPath at h
    by_cases ha : isAbs p = true
    · rw [if_pos ha] at h; cases h
    · rw [if_neg ha] at h
      refine ⟨by simpa using ha, ?_⟩
      by_cases hp : (goAbs cwd base) <+: goAbs cwd (goJoin (goAbs cwd base) p)
      · rw [if_pos hp] at h
        injection h with h2
        exact ⟨h2 ▸ hp, h2.symm⟩
      · rw [if_neg hp] at h; cases h
  · intro ha hp
    unfold fullPath
    rw [if_neg (by simp [ha]), if_neg hp]

/-- Witness for C8: with root `/a`, the relative path `b` resolves to
`/a/b` and is accepted; the absolute path `/x` is rejected. -/
theorem fullPath_guard_witness :
    fullPath ['/'] ['/', 'a'] ['/', 'x'] = .err ∧
      (isAbs ['b'] = false ∧
        goAbs ['/'] ['/', 'a'] <+: ['/', 'a', '/', 'b'] ∧
        ['/', 'a', '/', 'b'] =
          goAbs ['/'] (goJoin (goAbs ['/'] ['/', 'a']) ['b'])) :=
  ⟨(fullPath_guard ['/'] ['/', 'a'] ['/', 'x']).1 (by decide),
    (fullPath_guard ['/'] ['/', 'a'] ['b']).2.1 ['/', 'a', '/', 'b'] (by decide)⟩

/-- C8 counterexample: with root `/var/fo`, the relative input
`../foo/x` resolves to `/var/foo/x`, which does not lie under `/var/fo`
— yet the handler accepts it, because the textual prefix check
`strings.HasPrefix("/var/foo/x", "/var/fo")` succeeds without a
trailing separator. -/
theorem fullPath_escape_cex :
    fullPath ['/'] ['/', 'v', 'a', 'r', '/', 'f', 'o']
        ['.', '.', '/', 'f', 'o', 'o', '/', 'x'] =
      .ok ['/', 'v', 'a', 'r', '/', 'f', 'o', 'o', '/', 'x'] ∧
      ¬ UnderDir ['/', 'v', 'a', 'r', '/', 'f', 'o']
          ['/', 'v', 'a', 'r', '/', 'f', 'o', 'o', '/', 'x'] := by
  decide

end State

namespace Keys

/-- C9 (code bug): resolving the selector `"RSA 4096"` yields the RSA
factory with a 4092-bit modulus, whose `Name()` is `"RSA 4092"` — not
the 4096-bit factory the selector names; the registry's own standard
keys advertise 4096 (and not 4092), so the `4092` literal in
`getKeyFactory` is a slip. -/
theorem getKeyFactory_rsa4096_bug :
    getKeyFactory ['R', 'S', 'A', ' ', '4', '0', '9', '6'] = .ok (.rsa ⟨4092⟩) ∧
      rsaFactoryName ⟨4092⟩ = ['R', 'S', 'A', ' ', '4', '0', '9', '2'] ∧
      rsaFactoryName ⟨4092⟩ ≠ ['R', 'S', 'A', ' ', '4', '0', '9', '6'] ∧
      rsaModulusBits ⟨4092⟩ ≠ 4096 ∧
      (⟨4096⟩ : RSAKeyPairFactory) ∈ rsaStandardKeys ∧
      (⟨4092⟩ : RSAKeyPairFactory) ∉ rsaStandardKeys := by
  decide

end Keys

namespace Artifacts

open FsStore

theorem cacheGet_cacheSet {γ : Type} (c : List (Str × γ)) (k : Str) (v : γ) :
    cacheGet (cacheSet c k v) k = some v := by
  simp [cacheGet, cacheSet]

theorem readPemCached_cases {β γ : Type} (ext : Str)
    (fileOf : Str → Option (PemFile β)) (parse : β → Res γ)
    (cache : List (Str × γ)) (name : Str) :
    (readPemCached ext fileOf parse cache name).2 = cache ∨
      ∃ v, (readPemCached ext fileOf parse cache name).1 = .ok (some v) ∧
        (readPemCached ext fileOf parse cache name).2 = cacheSet cache name v := by
  cases hg : cacheGet cache name with
  | some c => exact Or.inl (by simp [readPemCached, hg])
  | none =>
    cases hf : fileOf (name ++ ext) with
    | none => exact Or.inl (by simp [readPemCached, hg, hf])
    | some f =>
      cases hd : pemDecode f with
      | none => exact Or.inl (by simp [readPemCached, hg, hf, hd])
      | some br =>
        cases hbr : br.2 with
        | true => exact Or.inl (by simp [readPemCached, hg, hf, hd, hbr])
        | false =>
          cases hp : parse br.1.bytes with
          | err => exact Or.inl (by simp [readPemCached, hg, hf, hd, hbr, hp])
          | ok v =>
            exact Or.inr ⟨v, by simp [readPemCached, hg, hf, hd, hbr, hp],
              by simp [readPemCached, hg, hf, hd, hbr, hp]⟩

theorem readAttributes_cases {β γ : Type} (fileOf : Str → Option β)
    (unmarshal : β → Res γ) (cache : List (Str × γ)) (name : Str) :
    (readAttributes fileOf unmarshal cache name).2 = cache ∨
      ∃ v, (readAttributes fileOf unmarshal cache name).1 = .ok v ∧
        (readAttributes fileOf unmarshal cache name).2 = cacheSet cache name v := by
  cases hg : cacheGet cache name with
  | some a => exact Or.inl (by simp [readAttributes, hg])
  | none =>
    cases hf : fileOf (name ++ attributesExtension) with
    | none => exact Or.inl (by simp [readAttributes, hg, hf])
    | some bytes =>
      cases hu : unmarshal bytes with
      | err => exact Or.inl (by simp [readAttributes, hg, hf, hu])
      | ok v =>
        exact Or.inr ⟨v, by simp [readAttributes, hg, hf, hu],
          by simp [readAttributes, hg, hf, hu]⟩

/-- C5 (amended): the per-kind caches are populated by successful reads
and also by successful artifact writes.  A read that fails (missing PEM
block, trailing bytes, parse or unmarshal error — and also a missing
file) leaves its cache unchanged; a write helper that succeeds inserts
the written artifact into its cache (even when the enclosing create
later fails and removes the staged files); a failing write errors
before its `Set` and so produces no cache. -/
theorem cache_population {β γ : Type} (fileOfC fileOfR fileOfL : Str → Option (PemFile β))
    (fileOfA : Str → Option β) (parseC parseR parseL : β → Res γ)
    (unmarshalA : β → Res γ) (cc cr cl ca : List (Str × γ)) (name : Str)
    (enc : Bool) (v : γ) :
    ((readCertificate fileOfC parseC cc name).1 = .err →
        (readCertificate fileOfC parseC cc name).2 = cc) ∧
      ((readCertificateRequest fileOfR parseR cr name).1 = .err →
        (readCertificateRequest fileOfR parseR cr name).2 = cr) ∧
      ((readRevocationList fileOfL parseL cl name).1 = .err →
        (readRevocationList fileOfL parseL cl name).2 = cl) ∧
      ((readAttributes fileOfA unmarshalA ca name).1 = .err →
        (readAttributes fileOfA unmarshalA ca name).2 = ca) ∧
      (∀ c', writeCertificate enc cc name v = .ok c' → cacheGet c' name = some v) ∧
      (∀ c', writeCertificateRequest enc cr name v = .ok c' →
        cacheGet c' name = some v) ∧
      (∀ c', writeRevocationList enc cl name v = .ok c' → cacheGet c' name = some v) ∧
      (∀ c', writeAttributes enc ca name v = .ok c' → cacheGet c' name = some v) ∧
      (enc = true → writeCertificate enc cc name v = .err) := by
  refine ⟨?_, ?_, ?_, ?_, ?_, ?_, ?_, ?_, ?_⟩
  · intro h
    unfold readCertificate at h ⊢
    rcases readPemCached_cases crtExtension fileOfC parseC cc name with hc | ⟨v', h1, _⟩
    · exact hc
    · rw [h1] at h; exact Res.noConfusion h
  · intro h
    unfold readCertificateRequest at h ⊢
    rcases readPemCached_cases csrExtension fileOfR parseR cr name with hc | ⟨v', h1, _⟩
    · exact hc
    · rw [h1] at h; exact Res.noConfusion h
  · intro h
    unfold readRevocationList at h ⊢
    rcases readPemCached_cases crlExtension fileOfL parseL cl name with hc | ⟨v', h1, _⟩
    · exact hc
    · rw [h1] at h; exact Res.noConfusion h
  · intro h
    rcases readAttributes_cases fileOfA unmarshalA ca name with hc | ⟨v', h1, _⟩
    · exact hc
    · rw [h1] at h; exact Res.noConfusion h
  · intro c' h
    cases henc : enc with
    | true => rw [henc] at h; simp [writeCertificate] at h
    | false =>
      rw [henc] at h
      simp only [writeCertificate, Bool.false_eq_true, if_false, Res.ok.injEq] at h
      rw [← h]
      exact cacheGet_cacheSet cc name v
  · intro c' h
    cases henc : enc with
    | true => rw [henc] at h; simp [writeCertificateRequest] at h
    | false =>
      rw [henc] at h
      simp only [writeCertificateRequest, Bool.false_eq_true, if_false, Res.ok.injEq] at h
      rw [← h]
      exact cacheGet_cacheSet cr name v
  · intro c' h
    cases henc : enc with
    | true => rw [henc] at h; simp [writeRevocationList] at h
    | false =>
      rw [henc] at h
      simp only [writeRevocationList, Bool.false_eq_true, if_false, Res.ok.injEq] at h
      rw [← h]
      exact cacheGet_cacheSet cl name v
  · intro c' h
    cases henc : enc with
    | true => rw [henc] at h; simp [writeAttributes] at h
    | false =>
      rw [henc] at h
      simp only [writeAttributes, Bool.false_eq_true, if_false, Res.ok.injEq] at h
      rw [← h]
      exact cacheGet_cacheSet ca name v
  · intro he
    simp [writeCertificate, he]

/-- Witness for C5: a read of attributes with no file errors and leaves
the empty cache empty; a successful certificate write populates the
cache. -/
theorem cache_population_witness :
    (readAttributes (fun _ => (none : Option Nat)) (fun _ => .ok 0)
        ([] : List (Str × Nat)) ['x']).2 = [] ∧
      cacheGet (cacheSet ([] : List (Str × Nat)) ['x'] 5) ['x'] = some 5 :=
  ⟨(cache_population (β := Nat) (γ := Nat) (fun _ => none) (fun _ => none) (fun _ => none)
      (fun _ => none) (fun _ => .err) (fun _ => .err) (fun _ => .err) (fun _ => .ok 0)
      [] [] [] [] ['x'] false 5).2.2.2.1 rfl,
    (cache_population (β := Nat) (γ := Nat) (fun _ => none) (fun _ => none) (fun _ => none)
      (fun _ => none) (fun _ => .err) (fun _ => .err) (fun _ => .err) (fun _ => .ok 0)
      [] [] [] [] ['x'] false 5).2.2.2.2.1 (cacheSet [] ['x'] 5) rfl⟩

/-- C5 counterexample: `writeCertificate` — a write path — inserts the
parsed certificate into the certificate cache on success, so "cache
populations happen only on successful reads" is false as stated. -/
theorem write_populates_cache_cex :
    writeCertificate false ([] : List (Str × Nat)) ['x'] 5 = .ok [(['x'], 5)] ∧
      cacheGet [(['x'], (5 : Nat))] ['x'] = some 5 := by
  decide

/-- C7: writing a PKCS#8-marshallable key with the store's
encrypted-PEM writer and reading the staged file back under the same
store secret returns the original key.  The hypotheses are the stdlib
contracts the code composes: `DecryptPEMBlock` inverts
`EncryptPEMBlock` under the same secret, and `ParsePKCS8PrivateKey`
inverts `MarshalPKCS8PrivateKey`. -/
theorem key_write_read_roundtrip {β κ σ : Type} (marshal : κ → Res β)
    (encrypt decrypt : σ → β → Res β) (parse : β → Res κ) (secret : σ) (key : κ)
    (kb eb : β) (fileOf : Str → Option (PemFile β)) (name : Str)
    (hm : marshal key = .ok kb)
    (he : encrypt secret kb = .ok eb)
    (hd : decrypt secret eb = .ok kb)
    (hp : parse kb = .ok key)
    (hf : fileOf (name ++ FsStore.keyExtension) =
      some (pemEncodeFile ⟨privateKeyPemType, eb⟩)) :
    writeKey marshal encrypt secret key = .ok (pemEncodeFile ⟨privateKeyPemType, eb⟩) ∧
      readKey fileOf decrypt parse secret name = .ok (some key) := by
  constructor
  · simp [writeKey, hm, he]
  · simp [readKey, hf, pemDecode, pemEncodeFile, hd, hp]

/-- Witness for C7: a concrete round trip with arithmetic stand-ins for
the codecs (`encrypt` adds the secret, `decrypt` subtracts it). -/
theorem key_write_read_roundtrip_witness :
    writeKey (fun k => .ok k) (fun s b => .ok (b + s)) (7 : Nat) 42 =
        .ok (pemEncodeFile ⟨privateKeyPemType, 49⟩) ∧
      readKey
          (fun p => if p = FsStore.keyExtension then
            some (pemEncodeFile ⟨privateKeyPemType, (49 : Nat)⟩) else none)
          (fun s b => .ok (b - s)) (fun b => .ok b) (7 : Nat) [] = .ok (some 42) :=
  key_write_read_roundtrip (fun k => .ok k) (fun s b => .ok (b + s))
    (fun s b => .ok (b - s)) (fun b => .ok b) 7 42 42 49
    (fun p => if p = FsStore.keyExtension then
      some (pemEncodeFile ⟨privateKeyPemType, (49 : Nat)⟩) else none) []
    rfl rfl rfl rfl (by simp)

/-- C10: when the artifact file is absent, `readKey`,
`readCertificate`, `readCertificateRequest` and `readRevocationList`
signal absence by `(nil, nil)` — a nil value with a nil error — whereas
`readAttributes` returns an error; the cache-miss hypotheses are the
reachable store states (a cached artifact never coexists with an absent
file through the store's API). -/
theorem absent_artifact_reads {β κ σ γ : Type}
    (fileOfK fileOfC fileOfR fileOfL : Str → Option (PemFile β))
    (fileOfA : Str → Option β) (decrypt : σ → β → Res β) (parseK : β → Res κ)
    (parseC parseR parseL : β → Res γ) (unmarshalA : β → Res γ)
    (cc cr cl ca : List (Str × γ)) (secret : σ) (name : Str)
    (hk : fileOfK (name ++ FsStore.keyExtension) = none)
    (hcm : cacheGet cc name = none)
    (hcf : fileOfC (name ++ FsStore.crtExtension) = none)
    (hrm : cacheGet cr name = none)
    (hrf : fileOfR (name ++ FsStore.csrExtension) = none)
    (hlm : cacheGet cl name = none)
    (hlf : fileOfL (name ++ FsStore.crlExtension) = none)
    (ham : cacheGet ca name = none)
    (haf : fileOfA (name ++ FsStore.attributesExtension) = none) :
    readKey fileOfK decrypt parseK secret name = .ok none ∧
      (readCertificate fileOfC parseC cc name).1 = .ok none ∧
      (readCertificateRequest fileOfR parseR cr name).1 = .ok none ∧
      (readRevocationList fileOfL parseL cl name).1 = .ok none ∧
      (readAttributes fileOfA unmarshalA ca name).1 = .err := by
  refine ⟨?_, ?_, ?_, ?_, ?_⟩
  · simp [readKey, hk]
  · simp [readCertificate, readPemCached, hcm, hcf]
  · simp [readCertificateRequest, readPemCached, hrm, hrf]
  · simp [readRevocationList, readPemCached, hlm, hlf]
  · simp [readAttributes, ham, haf]

/-- Witness for C10 on the empty store state. -/
theorem absent_artifact_reads_witness :
    readKey (β := Nat) (σ := Nat) (fun _ => none) (fun _ b => .ok b)
        (fun b => (.ok b : Res Nat)) 0 ['x'] = .ok none ∧
      (readCertificate (β := Nat) (fun _ => none) (fun b => (.ok b : Res Nat))
        [] ['x']).1 = .ok none ∧
      (readCertificateRequest (β := Nat) (fun _ => none) (fun b => (.ok b : Res Nat))
        [] ['x']).1 = .ok none ∧
      (readRevocationList (β := Nat) (fun _ => none) (fun b => (.ok b : Res Nat))
        [] ['x']).1 = .ok none ∧
      (readAttributes (β := Nat) (fun _ => none) (fun b => (.ok b : Res Nat))
        [] ['x']).1 = .err :=
  absent_artifact_reads (fun _ => none) (fun _ => none) (fun _ => none) (fun _ => none)
    (fun _ => none) (fun _ b => .ok b) (fun b => .ok b) (fun b => .ok b) (fun b => .ok b)
    (fun b => .ok b) (fun b => .ok b) [] [] [] [] 0 ['x']
    rfl rfl rfl rfl rfl rfl rfl rfl rfl

end Artifacts

end Certd
